import Mathlib

/-!
Shallow embedding of the `irace-rs` boundary layer
(`src/param_space.rs`, `src/experiment.rs`) and proofs about it.

Conventions of the embedding:
* `IndexMap<String, V>` is modelled as `List (String × V)` together with the
  operations `lookupKey` (`get`), `insertEntry` (`insert`: update in place,
  keeping the position, or append), and `swapRemove` (`remove`, which in
  `indexmap` is `swap_remove`: the removed slot receives the then-last entry).
* `f64` bound values are carried opaquely (the code never computes with them),
  represented as `Rat`; `u32`/`u64`/`usize` values are `Nat`.
* Fallible Rust code returning `PyResult` is modelled with an explicit outcome
  type; Rust panics (slice indexing, `assert!`) are a separate outcome from
  returned errors.
-/

/-- Ordered-map lookup, as `IndexMap::get` (keys are unique in an `IndexMap`,
so first-match lookup agrees with it). -/
def lookupKey {α : Type} : List (String × α) → String → Option α
  | [], _ => none
  | (k, v) :: rest, key => if k = key then some v else lookupKey rest key

/-- Rust `IndexMap::contains_key`. -/
def containsKey {α : Type} (m : List (String × α)) (key : String) : Bool :=
  (lookupKey m key).isSome

/-- Rust `IndexMap::insert`: if the key is present, its value is updated in place
(the entry keeps its position); otherwise the pair is appended last. -/
def insertEntry {α : Type} : List (String × α) → String → α → List (String × α)
  | [], key, v => [(key, v)]
  | (k, v') :: rest, key, v =>
    if k = key then (k, v) :: rest else (k, v') :: insertEntry rest key v

/-- The keys of the map, in order. -/
def keysOf {α : Type} (m : List (String × α)) : List String :=
  m.map Prod.fst

/-- Moves the last element of a list to its front (the order a slot sees after
`swap_remove` removed the element in front of the suffix). -/
def lastToFront {α : Type} (l : List α) : List α :=
  match l.getLast? with
  | none => []
  | some x => x :: l.dropLast

/-- Rust `IndexMap::remove`, which is `swap_remove`: the entry with the given key is
swapped with the last entry and then popped, so the removed slot receives the
then-last entry.  Returns the removed value and the remaining map. -/
def swapRemove {α : Type} : List (String × α) → String → Option (α × List (String × α))
  | [], _ => none
  | (k, v) :: rest, key =>
    if k = key then some (v, lastToFront rest)
    else
      match swapRemove rest key with
      | none => none
      | some (v', rest') => some (v', (k, v) :: rest')

/-- Rust `NumericalSubspace<T>` from `src/param_space.rs`: a numerical parameter
space with lower and upper bounds. -/
structure NumericalSubspace (T : Type) where
  name : String
  lower : T
  upper : T
  log : Bool
deriving DecidableEq

/-- Rust `DiscreteSubspace<T>` from `src/param_space.rs`: a categorical parameter
space with discrete variants. -/
structure DiscreteSubspace (T : Type) where
  name : String
  variants : List T
deriving DecidableEq

/-- Modelled from the spec: `mahf::params::Param` is external to this
repository; the spec describes categorical variants as a sequence of values
that the boundary layer treats as fully abstract ("an ordered sequence of
host values"), so a `Param` is represented by an identifying tag that is
only ever cloned and compared, never inspected. -/
structure Param where
  tag : String
deriving DecidableEq

/-- Rust `ParamSubspace` from `src/param_space.rs`: bundles parameter spaces of the
different kinds.  `nested` holds the subspace map of the inner `ParamSpace`
(the Rust `ParamSpace` struct is a map from names to subspaces). -/
inductive ParamSubspace where
  | real (sub : NumericalSubspace Rat)
  | integer (sub : NumericalSubspace Nat)
  | bool (sub : DiscreteSubspace Bool)
  | categorical (sub : DiscreteSubspace Param)
  | nested (subspaces : List (String × ParamSubspace))

/-- Rust `ParamSpace` from `src/param_space.rs`: its single field is
`subspaces: IndexMap<String, ParamSubspace>`. -/
abbrev ParamSpace : Type := List (String × ParamSubspace)

/-- Rust `ParamSubspace::is_nested`. -/
def ParamSubspace.is_nested : ParamSubspace → Bool
  | .nested _ => true
  | _ => false

/-- Rust `ParamSpace::add_raw`: `self.subspaces.insert(name, subspace)`. -/
def ParamSpace.add_raw (space : ParamSpace) (name : String) (subspace : ParamSubspace) :
    ParamSpace :=
  insertEntry space name subspace

/-- Rust `ParamSpace::add_real`: the subspace stores the name alongside the key. -/
def ParamSpace.add_real (space : ParamSpace) (name : String) (lower upper : Rat)
    (log : Bool) : ParamSpace :=
  space.add_raw name (.real ⟨name, lower, upper, log⟩)

/-- Rust `ParamSpace::add_integer`. -/
def ParamSpace.add_integer (space : ParamSpace) (name : String) (lower upper : Nat)
    (log : Bool) : ParamSpace :=
  space.add_raw name (.integer ⟨name, lower, upper, log⟩)

/-- Rust `ParamSpace::add_bool`: the implicit domain is `[true, false]`. -/
def ParamSpace.add_bool (space : ParamSpace) (name : String) : ParamSpace :=
  space.add_raw name (.bool ⟨name, [true, false]⟩)

/-- Rust `ParamSpace::add_categorical`. -/
def ParamSpace.add_categorical (space : ParamSpace) (name : String)
    (variants : List Param) : ParamSpace :=
  space.add_raw name (.categorical ⟨name, variants⟩)

/-- Rust `ParamSpace::add_nested`. -/
def ParamSpace.add_nested (space : ParamSpace) (name : String)
    (inner : ParamSpace) : ParamSpace :=
  space.add_raw name (.nested inner)

/-- Rust `ParamSpace::get_raw`. -/
def ParamSpace.get_raw (space : ParamSpace) (name : String) : Option ParamSubspace :=
  lookupKey space name

/-- A Python value as it can appear in the boundary dictionaries. -/
inductive PyValue where
  | int (n : Int)
  | float (x : Rat)
  | bool (b : Bool)
  | str (s : String)
deriving DecidableEq

/-- The `pyo3` extraction `extract::<f64>()`: accepts floats and (lossily but
irrelevantly here, since nothing computes with the value) integers and
booleans, as `PyFloat_AsDouble` does; anything else is a type error. -/
def extractF64 : PyValue → Option Rat
  | .float x => some x
  | .int n => some (n : Rat)
  | .bool b => some (if b then 1 else 0)
  | .str _ => none

/-- The `pyo3` extraction `extract::<u32>()`: an integer in `[0, 2^32)` (a Python
`bool` is an `int`); floats and strings are type errors, out-of-range
integers are overflow errors — both are returned errors, not panics. -/
def extractU32 : PyValue → Option Nat
  | .int n => if 0 ≤ n ∧ n < 2 ^ 32 then some n.toNat else none
  | .bool b => some (if b then 1 else 0)
  | _ => none

/-- The `pyo3` extraction `extract::<bool>()`: only an actual boolean. -/
def extractBool : PyValue → Option Bool
  | .bool b => some b
  | _ => none

/-- The `pyo3` extraction `extract::<usize>()`: an integer in `[0, 2^64)`. -/
def extractUsize : PyValue → Option Nat
  | .int n => if 0 ≤ n ∧ n < 2 ^ 64 then some n.toNat else none
  | .bool b => some (if b then 1 else 0)
  | _ => none

/-- A decoded leaf value as stored into `mahf::params::Params` by the decoder:
`insert` boxes the extracted float/integer/boolean, `insert_raw` stores a
cloned categorical `Param`. -/
inductive ParamValue where
  | real (x : Rat)
  | int (n : Nat)
  | bool (b : Bool)
  | param (p : Param)
deriving DecidableEq

/-- Modelled from the spec: `mahf::params::Params` is external to this
repository; per the spec it is "a mapping from name to a dynamically-tagged
leaf value", here a name-keyed entry list written through `insertEntry`. -/
abbrev Params : Type := List (String × ParamValue)

/-- Rust `Params::new()`. -/
def Params.new : Params := []

/-- The errors the decoder returns as `Err(PyErr)` values. -/
inductive DecodeError where
  | unknownParameter (name : String)
  | typeMismatch
  | nestedNotSupported
deriving DecidableEq

/-- Outcome of a fallible piece of Rust code: a returned `Ok` value, a
returned `Err` value, or a panic (abnormal termination — not a value the
caller receives). -/
inductive DecodeOutcome (α : Type) where
  | ok (value : α)
  | err (e : DecodeError)
  | panicked (msg : String)
deriving DecidableEq

/-- Whether the outcome is a returned error value. -/
def DecodeOutcome.isErr {α : Type} : DecodeOutcome α → Bool
  | .err _ => true
  | _ => false

/-- The entry loop of `Params::from_dict` (`src/experiment.rs:18-39`),
accumulating into `params`.  Note `categorical.variants[index]` is a plain
slice index: an out-of-range index is a panic, not a returned error. -/
def fromDictGo (space : ParamSpace) : List (String × PyValue) → Params → DecodeOutcome Params
  | [], params => .ok params
  | (key, value) :: rest, params =>
    match space.get_raw key with
    | none => .err (.unknownParameter key)
    | some subspace =>
      match subspace with
      | .real _ =>
        match extractF64 value with
        | none => .err .typeMismatch
        | some x => fromDictGo space rest (insertEntry params key (.real x))
      | .integer _ =>
        match extractU32 value with
        | none => .err .typeMismatch
        | some n => fromDictGo space rest (insertEntry params key (.int n))
      | .bool _ =>
        match extractBool value with
        | none => .err .typeMismatch
        | some b => fromDictGo space rest (insertEntry params key (.bool b))
      | .categorical categorical =>
        match extractUsize value with
        | none => .err .typeMismatch
        | some index =>
          if h : index < categorical.variants.length then
            fromDictGo space rest
              (insertEntry params key (.param (categorical.variants.get ⟨index, h⟩)))
          else .panicked "index out of bounds"
      | .nested _ => .err .nestedNotSupported

/-- Rust `Params::from_dict(kwargs, param_space)` from `src/experiment.rs:15-42`. -/
def Params.from_dict (kwargs : List (String × PyValue)) (param_space : ParamSpace) :
    DecodeOutcome Params :=
  fromDictGo param_space kwargs Params.new

/-- The panics `ParamSpace::flatten` can raise: the collision `assert!`
("flat key is already present", `src/param_space.rs:302-305`), and the
`unwrap`/index panics on a missing key (unreachable for a well-formed map). -/
inductive FlattenPanic where
  | flatKeyCollision
  | lookupFailed
deriving DecidableEq

/-- The inner loop of `ParamSpace::flatten` (`src/param_space.rs:300-307`):
insert every entry of the flattened inner space under its dot-concatenated
key, asserting that the flat key is not already present. -/
def addFlattened (key : String) : List (String × ParamSubspace) → ParamSpace →
    Except FlattenPanic ParamSpace
  | [], m => .ok m
  | (innerKey, innerParam) :: rest, m =>
    let flatKey := key ++ "." ++ innerKey
    if containsKey m flatKey then .error .flatKeyCollision
    else addFlattened key rest (insertEntry m flatKey innerParam)

mutual

/-- Rust `ParamSpace::flatten` (`src/param_space.rs:292-311`).  Returns the
`modified` flag and the resulting space, or the panic that aborted it. -/
def flattenSpace (space : ParamSpace) : Except FlattenPanic (Bool × ParamSpace) :=
  flattenGo space false space
termination_by (sizeOf space, 1)
decreasing_by all_goals exact Prod.Lex.right (sizeOf space) Nat.zero_lt_one

/-- The key loop of `flatten`: `snapshot` is the suffix of the snapshot of
`self.subspaces` still to process, `m` the evolving map.  The loop reads each
snapshot key's value from the snapshot rather than from `m`; this is the
same value, because the collision `assert!` keeps `add_raw` from ever
overwriting an existing key and `swap_remove` only removes the processed key
itself, so the value stored under an unprocessed snapshot key never changes. -/
def flattenGo (snapshot : List (String × ParamSubspace)) (modified : Bool)
    (m : ParamSpace) : Except FlattenPanic (Bool × ParamSpace) :=
  match snapshot with
  | [] => .ok (modified, m)
  | (key, sub) :: rest =>
    match sub with
    | .nested inner =>
      match swapRemove m key with
      | none => .error .lookupFailed
      | some (_, m₁) =>
        match flattenSpace inner with
        | .error e => .error e
        | .ok (_, innerFlat) =>
          match addFlattened key innerFlat m₁ with
          | .error e => .error e
          | .ok m₂ => flattenGo rest true m₂
    | _ => flattenGo rest modified m
termination_by (sizeOf snapshot, 0)
decreasing_by all_goals (simp_wf; exact Prod.Lex.left _ _ (by omega))

end

/-- One record of the external representation built by
`ParamSpace::as_py_object` (`src/param_space.rs:332-381`): the keyword
arguments passed to the engine-side `Real`/`Integer`/`Bool`/`Categorical`
constructors.  Categorical variants are the indices `0..N`, never the host
values. -/
inductive PyRecord where
  | real (name : String) (lower upper : Rat) (log : Bool)
  | integer (name : String) (lower upper : Nat) (log : Bool)
  | boolRec (name : String)
  | categorical (name : String) (variants : List Nat)
deriving DecidableEq

/-- Rust `ParamSpace::as_py_object`: one record per entry in mapping order;
a `Nested` subspace is a `PyValueError` ("nested parameter space is not
supported"). -/
def ParamSpace.as_py_object : ParamSpace → Except String (List PyRecord)
  | [] => .ok []
  | (name, sub) :: rest =>
    match sub with
    | .real r =>
      match ParamSpace.as_py_object rest with
      | .error e => .error e
      | .ok recs => .ok (.real name r.lower r.upper r.log :: recs)
    | .integer r =>
      match ParamSpace.as_py_object rest with
      | .error e => .error e
      | .ok recs => .ok (.integer name r.lower r.upper r.log :: recs)
    | .bool _ =>
      match ParamSpace.as_py_object rest with
      | .error e => .error e
      | .ok recs => .ok (.boolRec name :: recs)
    | .categorical list =>
      match ParamSpace.as_py_object rest with
      | .error e => .error e
      | .ok recs => .ok (.categorical name (List.range list.variants.length) :: recs)
    | .nested _ => .error "nested parameter space is not supported"

/-- The record an entry encodes to, as a relation (`False` for `Nested`,
which never encodes). -/
def encodesTo : String × ParamSubspace → PyRecord → Prop
  | (name, .real r), rec => rec = .real name r.lower r.upper r.log
  | (name, .integer r), rec => rec = .integer name r.lower r.upper r.log
  | (name, .bool _), rec => rec = .boolRec name
  | (name, .categorical list), rec =>
    rec = .categorical name (List.range list.variants.length)
  | (_, .nested _), _ => False

/-- Modelled from the spec: a registry entry is an erased instance
(`Box<dyn ErasedInstance>`, built over `downcast_rs`, both external to this
repository): a host value behind a type tag that supports a checked
downcast (spec 4.3 and design notes). -/
structure ErasedInstance where
  tag : String
  value : String
deriving DecidableEq

/-- Modelled from the spec: `as_any().downcast_ref::<I>()` compares the
stored type tag against the expected concrete type; a mismatch behaves
exactly like an absent entry. -/
def downcast_ref (expectedTag : String) (inst : ErasedInstance) : Option ErasedInstance :=
  if inst.tag = expectedTag then some inst else none

/-- The boundary payload of `Experiment::from_py` as far as its attributes
extract successfully: `configuration_id`, `seed`, `instance_id`, `instance`
(an optional registry index) and the `configuration` dictionary. -/
structure PyExperiment where
  configuration_id : String
  seed : Nat
  instance_id : Option String
  instanceIndex : Option Nat
  configuration : List (String × PyValue)

/-- Rust `Experiment` from `src/experiment.rs:51-57` (the field named `instance`
in Rust is `instanceRef` here, `instance` being reserved in Lean). -/
structure Experiment where
  id : String
  seed : Nat
  instance_id : Option String
  instanceRef : Option ErasedInstance
  params : Params

/-- Rust `Experiment::from_py` (`src/experiment.rs:60-85`): the instance is
resolved by index and checked downcast, absent on any failure; the params
dictionary is decoded against the schema, and only that decode can fail. -/
def Experiment.from_py (expectedTag : String) (obj : PyExperiment)
    (instances : List ErasedInstance) (param_space : ParamSpace) :
    DecodeOutcome Experiment :=
  let inst := (obj.instanceIndex.bind fun index => instances.get? index).bind
    fun e => downcast_ref expectedTag e
  match Params.from_dict obj.configuration param_space with
  | .ok params =>
    .ok { id := obj.configuration_id, seed := obj.seed, instance_id := obj.instance_id,
          instanceRef := inst, params := params }
  | .err e => .err e
  | .panicked msg => .panicked msg

/-! ### Concrete inputs used by witnesses and counterexamples -/

/-- The concrete scenario space of spec section 8:
`{x: Real[0,1], n: Integer[1,10], flag: Bool, mode: Categorical[[a,b,c]]}`. -/
def spaceDemo : ParamSpace :=
  [("x", .real ⟨"x", 0, 1, false⟩),
   ("n", .integer ⟨"n", 1, 10, false⟩),
   ("flag", .bool ⟨"flag", [true, false]⟩),
   ("mode", .categorical ⟨"mode", [⟨"a"⟩, ⟨"b"⟩, ⟨"c"⟩]⟩)]

/-- The valid entries of the spec section 8 raw config, without `mode`. -/
def cfgDemoPre : List (String × PyValue) :=
  [("x", .float (1/2)), ("n", .int 3), ("flag", .bool true)]

/-- Spec section 8 raw config `{x: 0.5, n: 3, flag: true, mode: 5}` whose
categorical index 5 exceeds the three declared variants. -/
def cfgDemoBad : List (String × PyValue) :=
  [("x", .float (1/2)), ("n", .int 3), ("flag", .bool true), ("mode", .int 5)]

/-- A space with one nested entry between non-nested ones, exposing the
swap-removal order behaviour of `flatten`. -/
def c2space : ParamSpace :=
  [("a", .real ⟨"a", 0, 1, false⟩),
   ("n", .nested [("x", .real ⟨"x", 0, 1, false⟩)]),
   ("b", .bool ⟨"b", [true, false]⟩),
   ("c", .bool ⟨"c", [true, false]⟩)]

/-- A space whose nested entry flattens onto an already present key
`"a.x"`. -/
def collisionSpace : ParamSpace :=
  [("a", .nested [("x", .real ⟨"x", 0, 1, false⟩)]),
   ("a.x", .bool ⟨"a.x", [true, false]⟩)]

/-- A doubly nested space: flattening must resolve it fully in one call. -/
def deepSpace : ParamSpace :=
  [("o", .nested [("i", .nested [("x", .real ⟨"x", 0, 1, false⟩)]),
                  ("y", .bool ⟨"y", [true, false]⟩)])]

/-- Whether the outcome is a returned `Ok` value. -/
def DecodeOutcome.isOk {α : Type} : DecodeOutcome α → Bool
  | .ok _ => true
  | _ => false

/-- The decoding of a single dictionary entry, factored out of the loop of
`Params::from_dict` for reasoning: the value that would be inserted for this
entry, or the failure that aborts the loop at this entry. -/
def decodeEntry (space : ParamSpace) (key : String) (value : PyValue) :
    DecodeOutcome ParamValue :=
  match space.get_raw key with
  | none => .err (.unknownParameter key)
  | some (.real _) =>
    match extractF64 value with
    | none => .err .typeMismatch
    | some x => .ok (.real x)
  | some (.integer _) =>
    match extractU32 value with
    | none => .err .typeMismatch
    | some n => .ok (.int n)
  | some (.bool _) =>
    match extractBool value with
    | none => .err .typeMismatch
    | some b => .ok (.bool b)
  | some (.categorical categorical) =>
    match extractUsize value with
    | none => .err .typeMismatch
    | some index =>
      if h : index < categorical.variants.length then
        .ok (.param (categorical.variants.get ⟨index, h⟩))
      else .panicked "index out of bounds"
  | some (.nested _) => .err .nestedNotSupported

mutual

/-- Well-formedness of a subspace: every nested level satisfies the
`IndexMap` invariant (keys are unique within one level). -/
def wfSub : ParamSubspace → Bool
  | .nested inner => wfEntries inner
  | _ => true

/-- Well-formedness of one level of subspace entries: no duplicate keys, and
every value is well-formed. -/
def wfEntries : List (String × ParamSubspace) → Bool
  | [] => true
  | (k, s) :: rest => !containsKey rest k && wfSub s && wfEntries rest

end

mutual

/-- The entries one subspace entry contributes to the intended flattening:
a non-nested entry stays, a nested one is replaced by its recursively
flattened children under dot-concatenated keys. -/
def flatSpecSub : String → ParamSubspace → List (String × ParamSubspace)
  | k, .nested inner => (flatSpec inner).map (fun p => (k ++ "." ++ p.1, p.2))
  | k, s => [(k, s)]

/-- The intended result of flattening, computed structurally. -/
def flatSpec : List (String × ParamSubspace) → List (String × ParamSubspace)
  | [] => []
  | (k, s) :: rest => flatSpecSub k s ++ flatSpec rest

end

/-! ### Basic facts about the `IndexMap` model -/

theorem lookupKey_isSome_iff {α : Type} (m : List (String × α)) (key : String) :
    (lookupKey m key).isSome = true ↔ key ∈ keysOf m := by
  induction m with
  | nil => simp [lookupKey, keysOf]
  | cons p rest ih =>
    obtain ⟨k, v⟩ := p
    by_cases hk : k = key
    · subst hk
      simp [lookupKey, keysOf]
    · have hk' : ¬key = k := fun h => hk h.symm
      simp only [lookupKey, hk, if_false, keysOf, List.map_cons, List.mem_cons]
      rw [ih]
      simp [keysOf, hk']

theorem containsKey_iff_mem {α : Type} (m : List (String × α)) (key : String) :
    containsKey m key = true ↔ key ∈ keysOf m := by
  rw [containsKey]
  exact lookupKey_isSome_iff m key

theorem containsKey_false_iff {α : Type} (m : List (String × α)) (key : String) :
    containsKey m key = false ↔ key ∉ keysOf m := by
  rw [← containsKey_iff_mem m key]
  cases containsKey m key <;> simp

theorem lookupKey_eq_none_iff {α : Type} (m : List (String × α)) (key : String) :
    lookupKey m key = none ↔ key ∉ keysOf m := by
  rw [← lookupKey_isSome_iff m key]
  cases lookupKey m key <;> simp

theorem lookupKey_mem {α : Type} {m : List (String × α)} {key : String} {v : α}
    (h : lookupKey m key = some v) : (key, v) ∈ m := by
  induction m with
  | nil => simp [lookupKey] at h
  | cons p rest ih =>
    obtain ⟨k, w⟩ := p
    by_cases hk : k = key
    · subst hk
      rw [lookupKey, if_pos rfl] at h
      injection h with h
      subst h
      exact List.mem_cons_self _ _
    · simp only [lookupKey, hk, if_false] at h
      exact List.mem_cons_of_mem _ (ih h)

theorem mem_keysOf_of_mem {α : Type} {m : List (String × α)} {k : String} {v : α}
    (h : (k, v) ∈ m) : k ∈ keysOf m :=
  List.mem_map.mpr ⟨(k, v), h, rfl⟩

theorem lookupKey_eq_of_mem {α : Type} {m : List (String × α)} {k : String} {v : α}
    (hnd : (keysOf m).Nodup) (h : (k, v) ∈ m) : lookupKey m k = some v := by
  induction m with
  | nil => simp at h
  | cons p rest ih =>
    obtain ⟨k₀, w⟩ := p
    rw [keysOf, List.map_cons, List.nodup_cons] at hnd
    rcases List.mem_cons.mp h with h | h
    · rw [Prod.mk.injEq] at h
      rw [lookupKey, h.1, if_pos rfl, h.2]
    · have hk : k₀ ≠ k := by
        intro hip
        exact hnd.1 (hip ▸ mem_keysOf_of_mem h)
      rw [lookupKey, if_neg hk]
      exact ih hnd.2 h

theorem mem_value_unique {α : Type} {m : List (String × α)} {k : String} {v₁ v₂ : α}
    (hnd : (keysOf m).Nodup) (h₁ : (k, v₁) ∈ m) (h₂ : (k, v₂) ∈ m) : v₁ = v₂ := by
  have e₁ := lookupKey_eq_of_mem hnd h₁
  have e₂ := lookupKey_eq_of_mem hnd h₂
  rw [e₁] at e₂
  injection e₂

theorem insertEntry_of_not_contains {α : Type} {m : List (String × α)} {key : String}
    (v : α) (h : containsKey m key = false) : insertEntry m key v = m ++ [(key, v)] := by
  induction m with
  | nil => simp [insertEntry]
  | cons p rest ih =>
    obtain ⟨k, w⟩ := p
    have hmem := (containsKey_false_iff _ key).mp h
    rw [keysOf, List.map_cons, List.mem_cons] at hmem
    push_neg at hmem
    have hk : k ≠ key := fun hip => hmem.1 hip.symm
    rw [insertEntry, if_neg hk, List.cons_append]
    have hrest : containsKey rest key = false :=
      (containsKey_false_iff _ key).mpr hmem.2
    rw [ih hrest]

theorem keysOf_insertEntry_new {α : Type} {m : List (String × α)} {key : String} (v : α)
    (h : containsKey m key = false) :
    keysOf (insertEntry m key v) = keysOf m ++ [key] := by
  rw [insertEntry_of_not_contains v h, keysOf, List.map_append]
  rfl

theorem keysOf_insertEntry_present {α : Type} {m : List (String × α)} {key : String} (v : α)
    (h : containsKey m key = true) : keysOf (insertEntry m key v) = keysOf m := by
  induction m with
  | nil => simp [containsKey, lookupKey] at h
  | cons p rest ih =>
    obtain ⟨k, w⟩ := p
    by_cases hk : k = key
    · rw [insertEntry, if_pos hk, keysOf, keysOf, List.map_cons, List.map_cons]
    · rw [insertEntry, if_neg hk, keysOf, keysOf, List.map_cons, List.map_cons]
      rw [containsKey, lookupKey, if_neg hk] at h
      rw [keysOf, keysOf] at ih
      rw [ih h]

theorem lastToFront_perm {α : Type} : (l : List α) → (lastToFront l).Perm l
  | [] => by simp [lastToFront]
  | [x] => by simp [lastToFront]
  | x :: y :: t => by
    have ih := lastToFront_perm (y :: t)
    rw [lastToFront] at ih ⊢
    rw [List.getLast?_cons_cons]
    match hg : (y :: t).getLast? with
    | none =>
      rw [List.getLast?_eq_getLast_of_ne_nil (List.cons_ne_nil y t)] at hg
      exact Option.noConfusion hg
    | some a =>
      rw [hg] at ih
      rw [List.dropLast_cons₂]
      exact (List.Perm.swap x a _).trans (ih.cons x)

theorem swapRemove_perm {α : Type} {m : List (String × α)} {key : String} {v : α}
    {m' : List (String × α)} (h : swapRemove m key = some (v, m')) :
    ((key, v) :: m').Perm m := by
  induction m generalizing v m' with
  | nil => simp [swapRemove] at h
  | cons p rest ih =>
    obtain ⟨k, w⟩ := p
    by_cases hk : k = key
    · subst hk
      rw [swapRemove, if_pos rfl] at h
      injection h with h
      rw [Prod.mk.injEq] at h
      obtain ⟨hv, hm⟩ := h
      subst hv
      subst hm
      exact ((lastToFront_perm rest).cons _)
    · rw [swapRemove, if_neg hk] at h
      match hrec : swapRemove rest key with
      | none => rw [hrec] at h; exact Option.noConfusion h
      | some pr =>
        obtain ⟨v'', rest''⟩ := pr
        rw [hrec] at h
        injection h with h
        rw [Prod.mk.injEq] at h
        obtain ⟨hv, hm⟩ := h
        subst hv
        subst hm
        exact (List.Perm.swap _ _ _).trans ((ih hrec).cons _)

theorem swapRemove_eq_none_iff {α : Type} (m : List (String × α)) (key : String) :
    swapRemove m key = none ↔ key ∉ keysOf m := by
  induction m with
  | nil => simp [swapRemove, keysOf]
  | cons p rest ih =>
    obtain ⟨k, w⟩ := p
    by_cases hk : k = key
    · subst hk
      rw [swapRemove, if_pos rfl]
      simp [keysOf]
    · rw [swapRemove, if_neg hk, keysOf, List.map_cons]
      have hk' : ¬key = k := fun hip => hk hip.symm
      simp only [keysOf] at ih
      match hrec : swapRemove rest key with
      | none =>
        simp only [hrec, true_iff] at ih
        simp [hk', ih]
      | some pr =>
        simp only [List.mem_cons, hk', false_or]
        constructor
        · intro hcontra; exact Option.noConfusion hcontra
        · intro hmem
          exfalso
          have hnone := ih.mpr hmem
          rw [hnone] at hrec
          exact Option.noConfusion hrec

/-! ### Facts about the schema-directed decoder -/

theorem fromDictGo_cons (space : ParamSpace) (key : String) (value : PyValue)
    (rest : List (String × PyValue)) (params : Params) :
    fromDictGo space ((key, value) :: rest) params =
      match decodeEntry space key value with
      | .ok v => fromDictGo space rest (insertEntry params key v)
      | .err e => .err e
      | .panicked msg => .panicked msg := by
  rw [fromDictGo, decodeEntry]
  cases hket : space.get_raw key with
  | none => rfl
  | some sub =>
    cases sub with
    | real s => cases extractF64 value <;> rfl
    | integer s => cases extractU32 value <;> rfl
    | bool s => cases extractBool value <;> rfl
    | categorical s =>
      cases extractUsize value with
      | none => rfl
      | some index =>
        by_cases h : index < s.variants.length
        · simp only [dif_pos h]
        · simp only [dif_neg h]
    | nested inner => rfl

theorem fromDictGo_append (space : ParamSpace) (pre post : List (String × PyValue))
    (params : Params) :
    fromDictGo space (pre ++ post) params =
      match fromDictGo space pre params with
      | .ok p => fromDictGo space post p
      | .err e => .err e
      | .panicked msg => .panicked msg := by
  induction pre generalizing params with
  | nil => rfl
  | cons e pre ih =>
    obtain ⟨key, value⟩ := e
    rw [List.cons_append, fromDictGo_cons, fromDictGo_cons]
    cases decodeEntry space key value with
    | ok v => exact ih (insertEntry params key v)
    | err e => rfl
    | panicked msg => rfl

theorem fromDictGo_isOk_iff (space : ParamSpace) (l : List (String × PyValue))
    (params : Params) :
    (∃ r, fromDictGo space l params = .ok r) ↔
      ∀ e ∈ l, (decodeEntry space e.1 e.2).isOk = true := by
  induction l generalizing params with
  | nil => exact ⟨fun _ => by simp, fun _ => ⟨params, rfl⟩⟩
  | cons e rest ih =>
    obtain ⟨key, value⟩ := e
    rw [fromDictGo_cons]
    cases hd : decodeEntry space key value with
    | ok v =>
      constructor
      · intro hr p hp
        rcases List.mem_cons.mp hp with hp | hp
        · subst hp
          rw [hd]
          rfl
        · exact ((ih (insertEntry params key v)).mp hr) p hp
      · intro hall
        exact (ih (insertEntry params key v)).mpr fun p hp =>
          hall p (List.mem_cons_of_mem _ hp)
    | err e =>
      constructor
      · intro hr
        obtain ⟨r, hr⟩ := hr
        exact DecodeOutcome.noConfusion hr
      · intro hall
        have := hall (key, value) (List.mem_cons_self _ _)
        rw [hd] at this
        exact Bool.noConfusion this
    | panicked msg =>
      constructor
      · intro hr
        obtain ⟨r, hr⟩ := hr
        exact DecodeOutcome.noConfusion hr
      · intro hall
        have := hall (key, value) (List.mem_cons_self _ _)
        rw [hd] at this
        exact Bool.noConfusion this

theorem fromDictGo_ok_keys (space : ParamSpace) (l : List (String × PyValue))
    (params r : Params) (hnd : (keysOf params ++ keysOf l).Nodup)
    (h : fromDictGo space l params = .ok r) :
    keysOf r = keysOf params ++ keysOf l := by
  induction l generalizing params with
  | nil =>
    rw [fromDictGo] at h
    injection h with h
    subst h
    simp [keysOf]
  | cons e rest ih =>
    obtain ⟨key, value⟩ := e
    rw [fromDictGo_cons] at h
    cases hd : decodeEntry space key value with
    | ok v =>
      rw [hd] at h
      simp only [keysOf, List.map_cons] at hnd
      have hkey : key ∉ keysOf params := by
        intro hmem
        exact (List.disjoint_of_nodup_append hnd) hmem (List.mem_cons_self _ _)
      have hins : keysOf (insertEntry params key v) = keysOf params ++ [key] :=
        keysOf_insertEntry_new v ((containsKey_false_iff _ _).mpr hkey)
      have hnd' : (keysOf (insertEntry params key v) ++ keysOf rest).Nodup := by
        rw [hins, ← List.append_cons]
        exact hnd
      have hres := ih (insertEntry params key v) hnd' h
      rw [hres, hins, ← List.append_cons]
      simp [keysOf]
    | err e =>
      rw [hd] at h
      exact DecodeOutcome.noConfusion h
    | panicked msg =>
      rw [hd] at h
      exact DecodeOutcome.noConfusion h

/-! ### Facts about flattening -/

theorem flattenGo_nil (modified : Bool) (m : ParamSpace) :
    flattenGo [] modified m = .ok (modified, m) := by
  rw [flattenGo]

theorem flattenGo_cons_nested (key : String) (inner rest : List (String × ParamSubspace))
    (modified : Bool) (m : ParamSpace) :
    flattenGo ((key, .nested inner) :: rest) modified m =
      match swapRemove m key with
      | none => .error .lookupFailed
      | some (_, m₁) =>
        match flattenSpace inner with
        | .error e => .error e
        | .ok (_, innerFlat) =>
          match addFlattened key innerFlat m₁ with
          | .error e => .error e
          | .ok m₂ => flattenGo rest true m₂ := by
  rw [flattenGo]

theorem flattenGo_cons_not_nested (key : String) {sub : ParamSubspace}
    (hsub : sub.is_nested = false) (rest : List (String × ParamSubspace))
    (modified : Bool) (m : ParamSpace) :
    flattenGo ((key, sub) :: rest) modified m = flattenGo rest modified m := by
  cases sub
  case nested => simp [ParamSubspace.is_nested] at hsub
  all_goals (rw [flattenGo]; exact fun _ h => ParamSubspace.noConfusion h)

theorem flattenSpace_def (space : ParamSpace) :
    flattenSpace space = flattenGo space false space := by
  rw [flattenSpace]

theorem flatSpec_nil : flatSpec [] = [] := rfl

theorem flatSpec_cons_nested (k : String) (inner rest : List (String × ParamSubspace)) :
    flatSpec ((k, .nested inner) :: rest) =
      (flatSpec inner).map (fun p => (k ++ "." ++ p.1, p.2)) ++ flatSpec rest := rfl

theorem flatSpec_cons_not_nested (k : String) {sub : ParamSubspace}
    (hsub : sub.is_nested = false) (rest : List (String × ParamSubspace)) :
    flatSpec ((k, sub) :: rest) = (k, sub) :: flatSpec rest := by
  cases sub
  case nested => simp [ParamSubspace.is_nested] at hsub
  all_goals rfl

theorem wfSub_nested (inner : List (String × ParamSubspace)) :
    wfSub (.nested inner) = wfEntries inner := rfl

theorem wfEntries_cons (k : String) (s : ParamSubspace)
    (rest : List (String × ParamSubspace)) :
    wfEntries ((k, s) :: rest) = (!containsKey rest k && wfSub s && wfEntries rest) := rfl

theorem wfEntries_iff (l : List (String × ParamSubspace)) :
    wfEntries l = true ↔ (keysOf l).Nodup ∧ ∀ p ∈ l, wfSub p.2 = true := by
  induction l with
  | nil =>
    rw [wfEntries]
    simp [keysOf]
  | cons p rest ih =>
    obtain ⟨k, s⟩ := p
    rw [wfEntries_cons]
    simp only [Bool.and_eq_true, Bool.not_eq_true']
    rw [containsKey_false_iff, ih]
    simp only [keysOf, List.map_cons, List.nodup_cons, List.mem_cons]
    constructor
    · rintro ⟨⟨hk, hs⟩, hnd, hall⟩
      refine ⟨⟨hk, hnd⟩, ?_⟩
      intro q hq
      rcases hq with hq | hq
      · rw [hq]
        exact hs
      · exact hall q hq
    · rintro ⟨⟨hk, hnd⟩, hall⟩
      exact ⟨⟨hk, hall (k, s) (Or.inl rfl)⟩, hnd, fun q hq => hall q (Or.inr hq)⟩

theorem addFlattened_ok {key : String} {ch : List (String × ParamSubspace)}
    {m m₂ : ParamSpace} (h : addFlattened key ch m = .ok m₂) :
    m₂ = m ++ ch.map (fun p => (key ++ "." ++ p.1, p.2)) := by
  induction ch generalizing m with
  | nil =>
    injection h with h
    subst h
    simp
  | cons p rest ih =>
    obtain ⟨ik, ip⟩ := p
    rw [addFlattened] at h
    by_cases hc : containsKey m (key ++ "." ++ ik) = true
    · rw [if_pos hc] at h
      exact Except.noConfusion h
    · rw [if_neg hc] at h
      have hcf : containsKey m (key ++ "." ++ ik) = false := by
        simpa using hc
      rw [ih h, insertEntry_of_not_contains _ hcf]
      simp

theorem addFlattened_nodup {key : String} {ch : List (String × ParamSubspace)}
    {m m₂ : ParamSpace} (hnd : (keysOf m).Nodup) (h : addFlattened key ch m = .ok m₂) :
    (keysOf m₂).Nodup := by
  induction ch generalizing m with
  | nil =>
    injection h with h
    subst h
    exact hnd
  | cons p rest ih =>
    obtain ⟨ik, ip⟩ := p
    rw [addFlattened] at h
    by_cases hc : containsKey m (key ++ "." ++ ik) = true
    · rw [if_pos hc] at h
      exact Except.noConfusion h
    · rw [if_neg hc] at h
      have hcf : containsKey m (key ++ "." ++ ik) = false := by
        simpa using hc
      refine ih ?_ h
      rw [keysOf_insertEntry_new _ hcf, List.nodup_append]
      refine ⟨hnd, List.nodup_singleton _, ?_⟩
      intro a ha hb
      rw [List.mem_singleton] at hb
      subst hb
      exact (containsKey_false_iff _ _).mp hcf ha

theorem addFlattened_error {key : String} {ch : List (String × ParamSubspace)}
    {m : ParamSpace} {e : FlattenPanic} (h : addFlattened key ch m = .error e) :
    e = .flatKeyCollision := by
  induction ch generalizing m with
  | nil => exact Except.noConfusion h
  | cons p rest ih =>
    obtain ⟨ik, ip⟩ := p
    rw [addFlattened] at h
    by_cases hc : containsKey m (key ++ "." ++ ik) = true
    · rw [if_pos hc] at h
      injection h with h
      exact h.symm
    · rw [if_neg hc] at h
      exact ih h

theorem flattenGo_step_ok {m : ParamSpace} {key : String}
    {inner rest : List (String × ParamSubspace)} {modified : Bool}
    {v : ParamSubspace} {m₁ : ParamSpace} (hsw : swapRemove m key = some (v, m₁))
    {modI : Bool} {innerFlat : ParamSpace}
    (hfs : flattenSpace inner = .ok (modI, innerFlat))
    {m₂ : ParamSpace} (haf : addFlattened key innerFlat m₁ = .ok m₂) :
    flattenGo ((key, .nested inner) :: rest) modified m = flattenGo rest true m₂ := by
  rw [flattenGo_cons_nested]
  simp only [hsw, hfs, haf]

theorem flattenGo_step_innerPanic {m : ParamSpace} {key : String}
    {inner rest : List (String × ParamSubspace)} {modified : Bool}
    {v : ParamSubspace} {m₁ : ParamSpace} (hsw : swapRemove m key = some (v, m₁))
    {e₀ : FlattenPanic} (hfs : flattenSpace inner = .error e₀) :
    flattenGo ((key, .nested inner) :: rest) modified m = .error e₀ := by
  rw [flattenGo_cons_nested]
  simp only [hsw, hfs]

theorem flattenGo_step_addPanic {m : ParamSpace} {key : String}
    {inner rest : List (String × ParamSubspace)} {modified : Bool}
    {v : ParamSubspace} {m₁ : ParamSpace} (hsw : swapRemove m key = some (v, m₁))
    {modI : Bool} {innerFlat : ParamSpace}
    (hfs : flattenSpace inner = .ok (modI, innerFlat))
    {e₀ : FlattenPanic} (haf : addFlattened key innerFlat m₁ = .error e₀) :
    flattenGo ((key, .nested inner) :: rest) modified m = .error e₀ := by
  rw [flattenGo_cons_nested]
  simp only [hsw, hfs, haf]

/-- Central invariant of the flatten loop, by strong induction on size:
`snapshot` is the unprocessed suffix of the snapshot, `acc` the (non-nested)
entries already accounted for.  On success the result is the accumulated
entries plus the structural flattening of the remaining snapshot (up to
order), has unique keys, no nested entries, and the exact `modified` flag;
on failure the panic is the collision assertion. -/
theorem flattenGo_aux :
    ∀ (n : Nat) (snapshot : List (String × ParamSubspace)), sizeOf snapshot ≤ n →
    ∀ (acc : List (String × ParamSubspace)) (m : ParamSpace) (modified : Bool),
    m.Perm (snapshot ++ acc) →
    (keysOf m).Nodup →
    (∀ p ∈ snapshot, wfSub p.2 = true) →
    (∀ p ∈ acc, p.2.is_nested = false) →
    (∀ modified' m', flattenGo snapshot modified m = .ok (modified', m') →
        m'.Perm (acc ++ flatSpec snapshot) ∧ (keysOf m').Nodup ∧
        (∀ p ∈ m', p.2.is_nested = false) ∧
        modified' = (modified || snapshot.any fun p => p.2.is_nested)) ∧
    (∀ e, flattenGo snapshot modified m = .error e → e = .flatKeyCollision) := by
  intro n
  induction n with
  | zero =>
    intro l hl acc m modified _ _ _ _
    exfalso
    cases l <;> simp_arith at hl
  | succ n ihn =>
    intro l hl acc m modified hperm hnd hwf hacc
    match l with
    | [] =>
      constructor
      · intro modified' m' hok
        rw [flattenGo_nil] at hok
        injection hok with hok
        rw [Prod.mk.injEq] at hok
        obtain ⟨hmod, hm⟩ := hok
        subst hmod
        subst hm
        refine ⟨?_, hnd, ?_, by simp⟩
        · rw [flatSpec_nil, List.append_nil]
          simpa using hperm
        · intro p hp
          exact hacc p (by simpa using hperm.mem_iff.mp hp)
      · intro e he
        rw [flattenGo_nil] at he
        exact Except.noConfusion he
    | (key, sub) :: rest =>
      have hszR : sizeOf rest ≤ n := by
        have hl' := hl
        simp only [List.cons.sizeOf_spec] at hl'
        omega
      by_cases hn : sub.is_nested = true
      · -- the nested branch of the loop body
        cases sub with
        | real s => simp [ParamSubspace.is_nested] at hn
        | integer s => simp [ParamSubspace.is_nested] at hn
        | bool s => simp [ParamSubspace.is_nested] at hn
        | categorical s => simp [ParamSubspace.is_nested] at hn
        | nested inner =>
        have hszI : sizeOf inner ≤ n := by
          have hl' := hl
          simp only [List.cons.sizeOf_spec, Prod.mk.sizeOf_spec,
            ParamSubspace.nested.sizeOf_spec] at hl'
          omega
        have hmem : (key, ParamSubspace.nested inner) ∈ m :=
          hperm.mem_iff.mpr (List.mem_append_left _ (List.mem_cons_self _ _))
        cases hsw : swapRemove m key with
        | none =>
          exact absurd (mem_keysOf_of_mem hmem) ((swapRemove_eq_none_iff m key).mp hsw)
        | some pr =>
          obtain ⟨v, m₁⟩ := pr
          have hswp := swapRemove_perm hsw
          have hvmem : (key, v) ∈ m := hswp.mem_iff.mp (List.mem_cons_self _ _)
          have hv : v = ParamSubspace.nested inner := mem_value_unique hnd hvmem hmem
          subst hv
          have hperm₁ : m₁.Perm (rest ++ acc) :=
            List.Perm.cons_inv (hswp.trans hperm)
          have hkeysPerm : ((key :: keysOf m₁)).Perm (keysOf m) := by
            have := hswp.map Prod.fst
            simpa [keysOf] using this
          have hndKey : (key :: keysOf m₁).Nodup := hkeysPerm.nodup_iff.mpr hnd
          rw [List.nodup_cons] at hndKey
          have hwfInner : wfEntries inner = true := by
            have hws := hwf (key, .nested inner) (List.mem_cons_self _ _)
            rw [wfSub_nested] at hws
            exact hws
          obtain ⟨hndI, hwfI⟩ := (wfEntries_iff inner).mp hwfInner
          have hinner := ihn inner hszI [] inner false
            (by rw [List.append_nil]) hndI hwfI
            (fun p hp => absurd hp (List.not_mem_nil p))
          obtain ⟨hinnerOk, hinnerErr⟩ := hinner
          cases hfs : flattenSpace inner with
          | error e₀ =>
            have he₀ : e₀ = FlattenPanic.flatKeyCollision := by
              rw [flattenSpace_def] at hfs
              exact hinnerErr e₀ hfs
            constructor
            · intro modified' m' hok
              rw [flattenGo_step_innerPanic hsw hfs] at hok
              exact Except.noConfusion hok
            · intro e he
              rw [flattenGo_step_innerPanic hsw hfs] at he
              injection he with he
              rw [← he]
              exact he₀
          | ok pr₂ =>
            obtain ⟨modI, innerFlat⟩ := pr₂
            have hfs' : flattenGo inner false inner = .ok (modI, innerFlat) := by
              rw [← flattenSpace_def]
              exact hfs
            obtain ⟨hIperm, hInd, hInn, hImod⟩ := hinnerOk modI innerFlat hfs'
            have hIF : innerFlat.Perm (flatSpec inner) := by
              simpa using hIperm
            cases haf : addFlattened key innerFlat m₁ with
            | error e₀ =>
              have he₀ := addFlattened_error haf
              constructor
              · intro modified' m' hok
                rw [flattenGo_step_addPanic hsw hfs haf] at hok
                exact Except.noConfusion hok
              · intro e he
                rw [flattenGo_step_addPanic hsw hfs haf] at he
                injection he with he
                rw [← he]
                exact he₀
            | ok m₂ =>
              have hm₂ := addFlattened_ok haf
              have hnd₂ : (keysOf m₂).Nodup := addFlattened_nodup hndKey.2 haf
              have hpermR : m₂.Perm
                  (rest ++ (acc ++ innerFlat.map (fun p => (key ++ "." ++ p.1, p.2)))) := by
                rw [hm₂, ← List.append_assoc]
                exact hperm₁.append_right _
              have haccR : ∀ p ∈ acc ++ innerFlat.map (fun p => (key ++ "." ++ p.1, p.2)),
                  p.2.is_nested = false := by
                intro p hp
                rcases List.mem_append.mp hp with hp | hp
                · exact hacc p hp
                · obtain ⟨q, hq, hfq⟩ := List.mem_map.mp hp
                  rw [← hfq]
                  exact hInn q hq
              have hrest := ihn rest hszR
                (acc ++ innerFlat.map (fun p => (key ++ "." ++ p.1, p.2))) m₂ true
                hpermR hnd₂ (fun p hp => hwf p (List.mem_cons_of_mem _ hp)) haccR
              obtain ⟨hrestOk, hrestErr⟩ := hrest
              constructor
              · intro modified' m' hok
                rw [flattenGo_step_ok hsw hfs haf] at hok
                obtain ⟨hp, hn', hnn, hm⟩ := hrestOk modified' m' hok
                refine ⟨?_, hn', hnn, ?_⟩
                · rw [flatSpec_cons_nested]
                  have step1 : m'.Perm
                      (acc ++ (innerFlat.map (fun p => (key ++ "." ++ p.1, p.2)) ++
                        flatSpec rest)) := by
                    rw [← List.append_assoc]
                    exact hp
                  exact step1.trans
                    (List.Perm.append_left acc ((hIF.map _).append_right _))
                · rw [hm]
                  simp [List.any_cons, ParamSubspace.is_nested]
              · intro e he
                rw [flattenGo_step_ok hsw hfs haf] at he
                exact hrestErr e he
      · -- the non-nested branch: the loop body does nothing
        have hsubf : sub.is_nested = false := by
          simpa using hn
        have hpermR : m.Perm (rest ++ (acc ++ [(key, sub)])) := by
          simpa [List.append_assoc] using
            hperm.trans (List.perm_append_singleton (key, sub) (rest ++ acc)).symm
        have haccR : ∀ p ∈ acc ++ [(key, sub)], p.2.is_nested = false := by
          intro p hp
          rcases List.mem_append.mp hp with hp | hp
          · exact hacc p hp
          · rw [List.mem_singleton] at hp
            rw [hp]
            exact hsubf
        have hrest := ihn rest hszR (acc ++ [(key, sub)]) m modified hpermR hnd
          (fun p hp => hwf p (List.mem_cons_of_mem _ hp)) haccR
        obtain ⟨hrestOk, hrestErr⟩ := hrest
        constructor
        · intro modified' m' hok
          rw [flattenGo_cons_not_nested key hsubf] at hok
          obtain ⟨hp, hn', hnn, hm⟩ := hrestOk modified' m' hok
          refine ⟨?_, hn', hnn, ?_⟩
          · rw [flatSpec_cons_not_nested key hsubf]
            rw [List.append_assoc] at hp
            exact hp
          · rw [hm]
            simp [List.any_cons, hsubf]
        · intro e he
          rw [flattenGo_cons_not_nested key hsubf] at he
          exact hrestErr e he

/-- Specification of a successful `flatten` on a well-formed space. -/
theorem flattenSpace_ok_spec {m : ParamSpace} (hwf : wfEntries m = true)
    {modified : Bool} {m' : ParamSpace} (h : flattenSpace m = .ok (modified, m')) :
    m'.Perm (flatSpec m) ∧ (keysOf m').Nodup ∧
    (∀ p ∈ m', p.2.is_nested = false) ∧
    modified = (m.any fun p => p.2.is_nested) := by
  obtain ⟨hnd, hwfv⟩ := (wfEntries_iff m).mp hwf
  obtain ⟨hok, _⟩ := flattenGo_aux (sizeOf m) m le_rfl [] m false
    (by rw [List.append_nil]) hnd hwfv (by simp)
  rw [flattenSpace_def] at h
  obtain ⟨hp, hn, hnn, hm⟩ := hok modified m' h
  exact ⟨by simpa using hp, hn, hnn, by simpa using hm⟩

/-- On a well-formed space the only panic `flatten` can raise is the
collision assertion. -/
theorem flattenSpace_error_spec {m : ParamSpace} (hwf : wfEntries m = true)
    {e : FlattenPanic} (h : flattenSpace m = .error e) : e = .flatKeyCollision := by
  obtain ⟨hnd, hwfv⟩ := (wfEntries_iff m).mp hwf
  obtain ⟨_, herr⟩ := flattenGo_aux (sizeOf m) m le_rfl [] m false
    (by rw [List.append_nil]) hnd hwfv (by simp)
  rw [flattenSpace_def] at h
  exact herr e h

/-- The flatten loop is the identity when no snapshot entry is nested. -/
theorem flattenGo_no_nested {l : List (String × ParamSubspace)}
    (h : ∀ p ∈ l, p.2.is_nested = false) (modified : Bool) (m : ParamSpace) :
    flattenGo l modified m = .ok (modified, m) := by
  induction l with
  | nil => exact flattenGo_nil modified m
  | cons p rest ih =>
    obtain ⟨k, s⟩ := p
    rw [flattenGo_cons_not_nested k (h (k, s) (List.mem_cons_self _ _))]
    exact ih fun q hq => h q (List.mem_cons_of_mem _ hq)

/-- Applying `flatten` to a space without nested entries is a no-op. -/
theorem flattenSpace_no_nested {m : ParamSpace}
    (h : ∀ p ∈ m, p.2.is_nested = false) :
    flattenSpace m = .ok (false, m) := by
  rw [flattenSpace_def]
  exact flattenGo_no_nested h false m

theorem lookupKey_insertEntry_self {α : Type} (m : List (String × α)) (key : String)
    (v : α) : lookupKey (insertEntry m key v) key = some v := by
  induction m with
  | nil => simp [insertEntry, lookupKey]
  | cons p rest ih =>
    obtain ⟨k, w⟩ := p
    by_cases hk : k = key
    · subst hk
      rw [insertEntry, if_pos rfl, lookupKey, if_pos rfl]
    · rw [insertEntry, if_neg hk, lookupKey, if_neg hk]
      exact ih

/-! ### The claims -/

/-- C1 (counterexample): on the spec section 8 failing config
`{x: 0.5, n: 3, flag: true, mode: 5}` the decoder does not return an error
result at all — `variants[index]` panics with "index out of bounds", which
is abnormal termination, not an `IndexOutOfRange` error result. -/
theorem c1_counterexample :
    Params.from_dict cfgDemoBad spaceDemo = .panicked "index out of bounds" ∧
    (Params.from_dict cfgDemoBad spaceDemo).isErr = false :=
  ⟨rfl, rfl⟩

/-- C1 (amended): for every schema and input mapping, once the decode
reaches an entry declared `Categorical` whose value coerces to an index
at least the declared variant count, the decode aborts by panicking
("index out of bounds") — it does not return an error result. -/
theorem c1_decode_oob_panics (space : ParamSpace) (pre post : List (String × PyValue))
    (key : String) (value : PyValue) (params₁ : Params)
    (cat : DiscreteSubspace Param) (index : Nat)
    (hpre : fromDictGo space pre Params.new = .ok params₁)
    (hkey : space.get_raw key = some (.categorical cat))
    (hval : extractUsize value = some index)
    (hoob : cat.variants.length ≤ index) :
    Params.from_dict (pre ++ (key, value) :: post) space =
      .panicked "index out of bounds" := by
  have hd : decodeEntry space key value = .panicked "index out of bounds" := by
    simp only [decodeEntry, hkey, hval]
    rw [dif_neg (by omega)]
  show fromDictGo space (pre ++ (key, value) :: post) Params.new = _
  rw [fromDictGo_append, hpre]
  show fromDictGo space ((key, value) :: post) params₁ = _
  rw [fromDictGo_cons, hd]

/-- C1 (witness): the amended statement applied to the spec section 8
schema and failing config. -/
theorem c1_decode_oob_panics_witness :
    Params.from_dict (cfgDemoPre ++ ("mode", PyValue.int 5) :: []) spaceDemo =
      .panicked "index out of bounds" :=
  c1_decode_oob_panics spaceDemo cfgDemoPre [] "mode" (.int 5)
    [("x", .real (1/2)), ("n", .int 3), ("flag", .bool true)]
    ⟨"mode", [⟨"a"⟩, ⟨"b"⟩, ⟨"c"⟩]⟩ 5 rfl rfl rfl (by decide)

/-- C4: the decoder aborts with `UnknownParameter` as soon as an entry's
name is absent from the schema (whatever follows that entry), and a
successful decode covers exactly the keys of the input mapping. -/
theorem c4_unknown_parameter_all_or_nothing :
    (∀ (space : ParamSpace) (pre post : List (String × PyValue)) (key : String)
        (value : PyValue) (params₁ : Params),
      fromDictGo space pre Params.new = .ok params₁ →
      space.get_raw key = none →
      Params.from_dict (pre ++ (key, value) :: post) space =
        .err (.unknownParameter key)) ∧
    (∀ (space : ParamSpace) (kwargs : List (String × PyValue)) (params : Params),
      (keysOf kwargs).Nodup →
      Params.from_dict kwargs space = .ok params →
      keysOf params = keysOf kwargs) := by
  constructor
  · intro space pre post key value params₁ hpre hkey
    have hd : decodeEntry space key value = .err (.unknownParameter key) := by
      simp only [decodeEntry, hkey]
    show fromDictGo space (pre ++ (key, value) :: post) Params.new = _
    rw [fromDictGo_append, hpre]
    show fromDictGo space ((key, value) :: post) params₁ = _
    rw [fromDictGo_cons, hd]
  · intro space kwargs params hnd h
    have := fromDictGo_ok_keys space kwargs Params.new params (by simpa [keysOf, Params.new]) h
    simpa [keysOf, Params.new] using this

/-- C4 (witness): decoding `{x: 0.5, n: 3, flag: true, bogus: 0}` against
the spec section 8 schema fails with `UnknownParameter "bogus"`, and the
successful decode of the valid prefix has exactly its keys. -/
theorem c4_unknown_parameter_all_or_nothing_witness :
    Params.from_dict (cfgDemoPre ++ ("bogus", PyValue.int 0) :: []) spaceDemo =
      .err (.unknownParameter "bogus") ∧
    keysOf [("x", ParamValue.real (1/2)), ("n", ParamValue.int 3),
      ("flag", ParamValue.bool true)] = keysOf cfgDemoPre :=
  ⟨c4_unknown_parameter_all_or_nothing.1 spaceDemo cfgDemoPre [] "bogus" (.int 0)
      [("x", .real (1/2)), ("n", .int 3), ("flag", .bool true)] rfl rfl,
   c4_unknown_parameter_all_or_nothing.2 spaceDemo cfgDemoPre
      [("x", .real (1/2)), ("n", .int 3), ("flag", .bool true)] (by decide) rfl⟩

/-- C10: the decoder never requires completeness — the empty mapping
decodes against every schema, and any sublist of a decodable mapping
decodes as well. -/
theorem c10_no_completeness_required :
    (∀ space : ParamSpace, Params.from_dict [] space = .ok Params.new) ∧
    (∀ (space : ParamSpace) (kwargs kwargs' : List (String × PyValue))
        (params : Params),
      kwargs'.Sublist kwargs →
      Params.from_dict kwargs space = .ok params →
      ∃ params', Params.from_dict kwargs' space = .ok params') := by
  constructor
  · intro space
    rfl
  · intro space kwargs kwargs' params hsub h
    have hall := (fromDictGo_isOk_iff space kwargs Params.new).mp ⟨params, h⟩
    exact (fromDictGo_isOk_iff space kwargs' Params.new).mpr
      fun e he => hall e (hsub.subset he)

/-- C10 (witness): the empty mapping and the sub-mapping `{flag: true}` of
the valid spec section 8 entries both decode against the schema. -/
theorem c10_no_completeness_required_witness :
    Params.from_dict [] spaceDemo = .ok Params.new ∧
    ∃ params', Params.from_dict [("flag", PyValue.bool true)] spaceDemo = .ok params' :=
  ⟨c10_no_completeness_required.1 spaceDemo,
   c10_no_completeness_required.2 spaceDemo cfgDemoPre [("flag", .bool true)]
     [("x", .real (1/2)), ("n", .int 3), ("flag", .bool true)]
     ((List.nil_sublist []).cons₂ _ |>.cons _ |>.cons _) rfl⟩

/-- C3 (counterexample): `add_raw` under an existing name does not fail any
assertion — it silently replaces the declaration in place. -/
theorem c3_counterexample :
    ParamSpace.add_raw [("x", .real ⟨"x", 0, 1, false⟩)] "x"
        (.bool ⟨"x", [true, false]⟩) =
      [("x", ParamSubspace.bool ⟨"x", [true, false]⟩)] :=
  rfl

/-- C3 (amended): adding a declaration under a name already present at the
same level silently overwrites the existing declaration in place — the key
set is unchanged and the stored value is the new one; there is no
construction-time assertion (insertion is total). -/
theorem c3_add_raw_overwrites (space : ParamSpace) (name : String)
    (sub : ParamSubspace) (h : containsKey space name = true) :
    keysOf (space.add_raw name sub) = keysOf space ∧
    lookupKey (space.add_raw name sub) name = some sub :=
  ⟨keysOf_insertEntry_present sub h, lookupKey_insertEntry_self space name sub⟩

/-- C3 (witness): overwriting `"x"` in a one-entry space. -/
theorem c3_add_raw_overwrites_witness :
    keysOf (ParamSpace.add_raw [("x", .real ⟨"x", 0, 1, false⟩)] "x"
        (.bool ⟨"x", [true, false]⟩)) =
      keysOf [("x", ParamSubspace.real ⟨"x", 0, 1, false⟩)] ∧
    lookupKey (ParamSpace.add_raw [("x", .real ⟨"x", 0, 1, false⟩)] "x"
        (.bool ⟨"x", [true, false]⟩)) "x" =
      some (ParamSubspace.bool ⟨"x", [true, false]⟩) :=
  c3_add_raw_overwrites [("x", .real ⟨"x", 0, 1, false⟩)] "x"
    (.bool ⟨"x", [true, false]⟩) rfl

/-- C2 (counterexample): flattening a space `[a, n(nested), b, c]` removes
`n` by swap-removal, moving the then-last entry `c` into its slot: the
non-nested entries end up in order `a, c, b` — not their original relative
order `a, b, c`. -/
theorem c2_counterexample :
    flattenSpace c2space =
      .ok (true,
        [("a", ParamSubspace.real ⟨"a", 0, 1, false⟩),
         ("c", ParamSubspace.bool ⟨"c", [true, false]⟩),
         ("b", ParamSubspace.bool ⟨"b", [true, false]⟩),
         ("n.x", ParamSubspace.real ⟨"x", 0, 1, false⟩)]) ∧
    keysOf
        [("a", ParamSubspace.real ⟨"a", 0, 1, false⟩),
         ("c", ParamSubspace.bool ⟨"c", [true, false]⟩),
         ("b", ParamSubspace.bool ⟨"b", [true, false]⟩),
         ("n.x", ParamSubspace.real ⟨"x", 0, 1, false⟩)] = ["a", "c", "b", "n.x"] := by
  constructor
  · simp [c2space, flattenSpace_def, flattenGo, swapRemove, lastToFront, addFlattened,
      insertEntry, containsKey, lookupKey]
  · rfl

/-- C2 (amended): the mapping itself preserves insertion order — inserting
a new name appends it last and re-inserting an existing name updates in
place, keeping the key order — and `flatten` preserves the flattened
entries up to order (as a multiset); but `flatten` removes `Nested` entries
by swap-removal, so the surviving entries' relative order is not preserved
in general (see the counterexample). -/
theorem c2_insertion_order_flatten_entries :
    (∀ (space : ParamSpace) (name : String) (sub : ParamSubspace),
      keysOf (space.add_raw name sub) =
        if containsKey space name = true then keysOf space
        else keysOf space ++ [name]) ∧
    (∀ (space : ParamSpace) (modified : Bool) (flat : ParamSpace),
      wfEntries space = true → flattenSpace space = .ok (modified, flat) →
      flat.Perm (flatSpec space)) := by
  constructor
  · intro space name sub
    by_cases h : containsKey space name = true
    · rw [if_pos h]
      exact keysOf_insertEntry_present sub h
    · rw [if_neg h]
      exact keysOf_insertEntry_new sub (by simpa using h)
  · intro space modified flat hwf h
    exact (flattenSpace_ok_spec hwf h).1

/-- C2 (witness): the amended statement applied to the four-entry space of
the counterexample. -/
theorem c2_insertion_order_flatten_entries_witness :
    keysOf (c2space.add_raw "z" (.bool ⟨"z", [true, false]⟩)) =
      (if containsKey c2space "z" = true then keysOf c2space
       else keysOf c2space ++ ["z"]) ∧
    List.Perm
      [("a", ParamSubspace.real ⟨"a", 0, 1, false⟩),
       ("c", ParamSubspace.bool ⟨"c", [true, false]⟩),
       ("b", ParamSubspace.bool ⟨"b", [true, false]⟩),
       ("n.x", ParamSubspace.real ⟨"x", 0, 1, false⟩)] (flatSpec c2space) :=
  ⟨c2_insertion_order_flatten_entries.1 c2space "z" (.bool ⟨"z", [true, false]⟩),
   c2_insertion_order_flatten_entries.2 c2space true _ rfl
     (by simp [c2space, flattenSpace_def, flattenGo, swapRemove, lastToFront,
       addFlattened, insertEntry, containsKey, lookupKey])⟩

/-- C5: a successful top-level `flatten` of a well-formed space yields
exactly the recursively dot-flattened entries (up to order), leaves no
`Nested` subspace, and returns `true` iff at least one `Nested` entry was
removed. -/
theorem c5_flatten_correctness (space : ParamSpace) (modified : Bool)
    (flat : ParamSpace) (hwf : wfEntries space = true)
    (h : flattenSpace space = .ok (modified, flat)) :
    flat.Perm (flatSpec space) ∧ (∀ p ∈ flat, p.2.is_nested = false) ∧
    (modified = true ↔ ∃ p ∈ space, p.2.is_nested = true) := by
  obtain ⟨hp, _, hnn, hm⟩ := flattenSpace_ok_spec hwf h
  refine ⟨hp, hnn, ?_⟩
  rw [hm]
  simp [List.any_eq_true]

/-- C5 (witness): a doubly nested space fully resolves in one call, its
result a permutation of the dotted keys `o.i.x`, `o.y`. -/
theorem c5_flatten_correctness_witness :
    List.Perm [("o.y", ParamSubspace.bool ⟨"y", [true, false]⟩),
               ("o.i.x", ParamSubspace.real ⟨"x", 0, 1, false⟩)]
      (flatSpec deepSpace) ∧
    (∀ p ∈ [("o.y", ParamSubspace.bool ⟨"y", [true, false]⟩),
            ("o.i.x", ParamSubspace.real ⟨"x", 0, 1, false⟩)],
      p.2.is_nested = false) ∧
    (true = true ↔ ∃ p ∈ deepSpace, p.2.is_nested = true) :=
  c5_flatten_correctness deepSpace true _ rfl
    (by simp [deepSpace, flattenSpace_def, flattenGo, swapRemove, lastToFront,
      addFlattened, insertEntry, containsKey, lookupKey])

/-- C6: flattening a space with no nested subspaces is a no-op (`false`,
mapping unchanged), so flatten is idempotent: after a successful flatten a
second call changes nothing. -/
theorem c6_flatten_idempotent :
    (∀ space : ParamSpace, (∀ p ∈ space, p.2.is_nested = false) →
      flattenSpace space = .ok (false, space)) ∧
    (∀ (space : ParamSpace) (modified : Bool) (flat : ParamSpace),
      wfEntries space = true → flattenSpace space = .ok (modified, flat) →
      flattenSpace flat = .ok (false, flat)) := by
  constructor
  · intro space h
    exact flattenSpace_no_nested h
  · intro space modified flat hwf h
    exact flattenSpace_no_nested (flattenSpace_ok_spec hwf h).2.2.1

/-- C6 (witness): the flat spec section 8 space is untouched, and the
flatten result of the counterexample space is a fixed point. -/
theorem c6_flatten_idempotent_witness :
    flattenSpace spaceDemo = .ok (false, spaceDemo) ∧
    flattenSpace
        [("a", ParamSubspace.real ⟨"a", 0, 1, false⟩),
         ("c", ParamSubspace.bool ⟨"c", [true, false]⟩),
         ("b", ParamSubspace.bool ⟨"b", [true, false]⟩),
         ("n.x", ParamSubspace.real ⟨"x", 0, 1, false⟩)] =
      .ok (false,
        [("a", ParamSubspace.real ⟨"a", 0, 1, false⟩),
         ("c", ParamSubspace.bool ⟨"c", [true, false]⟩),
         ("b", ParamSubspace.bool ⟨"b", [true, false]⟩),
         ("n.x", ParamSubspace.real ⟨"x", 0, 1, false⟩)]) :=
  ⟨c6_flatten_idempotent.1 spaceDemo (by decide),
   c6_flatten_idempotent.2 c2space true _ rfl
     (by simp [c2space, flattenSpace_def, flattenGo, swapRemove, lastToFront,
       addFlattened, insertEntry, containsKey, lookupKey])⟩

/-- C7: if two entries of a well-formed space flatten to the same name,
`flatten` fails with the collision assertion (`FlattenKeyCollision`), never
silently overwriting. -/
theorem c7_flatten_collision (space : ParamSpace) (hwf : wfEntries space = true)
    (hdup : ¬(keysOf (flatSpec space)).Nodup) :
    flattenSpace space = .error .flatKeyCollision := by
  cases hres : flattenSpace space with
  | ok pr =>
    obtain ⟨modified, flat⟩ := pr
    obtain ⟨hp, hnd, _, _⟩ := flattenSpace_ok_spec hwf hres
    exact absurd ((hp.map Prod.fst).nodup_iff.mp hnd) hdup
  | error e =>
    rw [flattenSpace_error_spec hwf hres]

/-- C7 (witness): a nested entry flattening onto the already present key
`"a.x"` makes `flatten` fail with the collision assertion. -/
theorem c7_flatten_collision_witness :
    flattenSpace collisionSpace = .error .flatKeyCollision :=
  c7_flatten_collision collisionSpace rfl (by decide)

/-- A space without nested entries encodes successfully. -/
theorem as_py_object_ok_of_no_nested {space : ParamSpace}
    (h : ∀ p ∈ space, p.2.is_nested = false) :
    ∃ recs, space.as_py_object = .ok recs := by
  induction space with
  | nil => exact ⟨[], rfl⟩
  | cons p rest ih =>
    obtain ⟨name, sub⟩ := p
    obtain ⟨recs, hr⟩ := ih fun q hq => h q (List.mem_cons_of_mem _ hq)
    cases sub
    case nested inner =>
      exact absurd (h (name, .nested inner) (List.mem_cons_self _ _))
        (by simp [ParamSubspace.is_nested])
    case real s =>
      exact ⟨.real name s.lower s.upper s.log :: recs,
        by simp only [ParamSpace.as_py_object, hr]⟩
    case integer s =>
      exact ⟨.integer name s.lower s.upper s.log :: recs,
        by simp only [ParamSpace.as_py_object, hr]⟩
    case bool s =>
      exact ⟨.boolRec name :: recs, by simp only [ParamSpace.as_py_object, hr]⟩
    case categorical s =>
      exact ⟨.categorical name (List.range s.variants.length) :: recs,
        by simp only [ParamSpace.as_py_object, hr]⟩

/-- A space with a nested entry fails to encode, with the `PyValueError`
message of `src/param_space.rs:367-369`. -/
theorem as_py_object_error_of_nested {space : ParamSpace}
    (h : ∃ p ∈ space, p.2.is_nested = true) :
    space.as_py_object = .error "nested parameter space is not supported" := by
  induction space with
  | nil =>
    obtain ⟨p, hp, _⟩ := h
    exact absurd hp (List.not_mem_nil p)
  | cons p rest ih =>
    obtain ⟨name, sub⟩ := p
    obtain ⟨q, hq, hqn⟩ := h
    cases sub
    case nested inner => rfl
    all_goals rcases List.mem_cons.mp hq with hq | hq
    all_goals first
    | (rw [hq] at hqn
       exact absurd hqn (by simp [ParamSubspace.is_nested]))
    | (have hrest := ih ⟨q, hq, hqn⟩
       simp only [ParamSpace.as_py_object, hrest])

/-- A successful encoding matches the space entry-for-entry, in order. -/
theorem as_py_object_forall₂ {space : ParamSpace} {recs : List PyRecord}
    (h : space.as_py_object = .ok recs) : List.Forall₂ encodesTo space recs := by
  induction space generalizing recs with
  | nil =>
    injection h with h
    rw [← h]
    exact List.Forall₂.nil
  | cons p rest ih =>
    obtain ⟨name, sub⟩ := p
    cases sub
    case nested inner => exact Except.noConfusion h
    all_goals cases hr : ParamSpace.as_py_object rest with
    | error e =>
      simp only [ParamSpace.as_py_object, hr] at h
      exact Except.noConfusion h
    | ok recs' =>
      simp only [ParamSpace.as_py_object, hr] at h
      injection h with h
      rw [← h]
      exact List.Forall₂.cons rfl (ih hr)

/-- C8: encoding for the engine succeeds exactly on spaces without `Nested`
entries — any remaining `Nested` subspace makes it fail with the
"nested parameter space is not supported" error — and a successful encoding
has one record per entry, in mapping order, with `Categorical` variants
exposed as the indices `0..N` only. -/
theorem c8_as_py_object (space : ParamSpace) :
    ((∀ p ∈ space, p.2.is_nested = false) →
      ∃ recs, space.as_py_object = .ok recs) ∧
    ((∃ p ∈ space, p.2.is_nested = true) →
      space.as_py_object = .error "nested parameter space is not supported") ∧
    (∀ recs, space.as_py_object = .ok recs → List.Forall₂ encodesTo space recs) :=
  ⟨fun h => as_py_object_ok_of_no_nested h,
   fun h => as_py_object_error_of_nested h,
   fun _ h => as_py_object_forall₂ h⟩

/-- C8 (witness): the spec section 8 space encodes (no nested entries), its
records match entry-for-entry in order — in particular `mode` encodes to
variant indices `[0, 1, 2]` — and a space holding a nested entry fails. -/
theorem c8_as_py_object_witness :
    (∃ recs, spaceDemo.as_py_object = .ok recs) ∧
    List.Forall₂ encodesTo spaceDemo
      [.real "x" 0 1 false, .integer "n" 1 10 false, .boolRec "flag",
       .categorical "mode" [0, 1, 2]] ∧
    ParamSpace.as_py_object deepSpace =
      .error "nested parameter space is not supported" :=
  ⟨(c8_as_py_object spaceDemo).1 (by decide),
   (c8_as_py_object spaceDemo).2.2 _ rfl,
   (c8_as_py_object deepSpace).2.1
     ⟨("o", .nested [("i", .nested [("x", .real ⟨"x", 0, 1, false⟩)]),
                     ("y", .bool ⟨"y", [true, false]⟩)]),
      List.mem_cons_self _ _, rfl⟩⟩

/-- C9: whenever the params dictionary decodes, `Experiment::from_py`
succeeds with the usual fields even if the instance reference cannot be
resolved — no index, an out-of-range index, or a failing checked downcast
all yield an absent instance rather than an error. -/
theorem c9_from_py_absent_instance (expectedTag : String) (obj : PyExperiment)
    (instances : List ErasedInstance) (space : ParamSpace) (params : Params)
    (hparams : Params.from_dict obj.configuration space = .ok params)
    (habsent : obj.instanceIndex = none ∨
      (∃ i, obj.instanceIndex = some i ∧ instances.length ≤ i) ∨
      (∃ i e, obj.instanceIndex = some i ∧ instances.get? i = some e ∧
        e.tag ≠ expectedTag)) :
    Experiment.from_py expectedTag obj instances space =
      .ok { id := obj.configuration_id, seed := obj.seed,
            instance_id := obj.instance_id, instanceRef := none,
            params := params } := by
  have hres : (obj.instanceIndex.bind fun index => instances.get? index).bind
      (fun e => downcast_ref expectedTag e) = none := by
    rcases habsent with h | ⟨i, hi, hlen⟩ | ⟨i, e, hi, he, htag⟩
    · rw [h]
      rfl
    · have hg : instances[i]? = none := List.getElem?_eq_none hlen
      rw [hi]
      simp [hg]
    · have hge : instances[i]? = some e := by
        rw [← List.get?_eq_getElem?]
        exact he
      rw [hi]
      simp [hge, downcast_ref, htag]
  simp only [Experiment.from_py, hres, hparams]

/-- C9 (witness): an out-of-range index against an empty registry resolves
to an absent instance while construction succeeds. -/
theorem c9_from_py_absent_instance_witness :
    Experiment.from_py "TypeA" ⟨"7", 42, some "inst0", some 5, []⟩ [] spaceDemo =
      .ok ⟨"7", 42, some "inst0", none, []⟩ :=
  c9_from_py_absent_instance "TypeA" ⟨"7", 42, some "inst0", some 5, []⟩ [] spaceDemo
    [] rfl (Or.inr (Or.inl ⟨5, rfl, by decide⟩))
